import Mathlib

/-!
Verification of the geometric/evaluation core of boundedShapePredSOTA.py.

Numbers are embedded as exact rationals (the Python code computes with
floats, but every claim under study depends only on comparisons and
field arithmetic, which the rational embedding mirrors exactly); the
Euclidean norm, which is irrational, is abstracted as a parameter
`hyp : ℚ → ℚ → ℚ` (the length of the 2-vector (dx, dy)); theorems that
need properties of the true norm take them as explicit hypotheses.
Fallible code paths (Python IndexError and similar) are embedded as
Option-valued functions returning none where Python raises.
-/

/-- A 2D point, as the Python code stores (x, y) pairs. -/
abbrev Pt : Type := ℚ × ℚ

/-- One 6-value segment row [c1x, c1y, c2x, c2y, ex, ey], the model/GT
format used throughout the code (CURVE_PARAMS = 6). -/
structure Row6 where
  c1x : ℚ
  c1y : ℚ
  c2x : ℚ
  c2y : ℚ
  ex : ℚ
  ey : ℚ
deriving DecidableEq, Repr

/-- The endpoint pair of a row. -/
def Row6.endPt (r : Row6) : Pt := (r.ex, r.ey)

/-- The all-sentinel row appended as padding by AugmentedDataset
(pad_tensor = -1 * torch.ones((pad_len, 6))). -/
def padRow : Row6 := ⟨-1, -1, -1, -1, -1, -1⟩

/-- Padding a sequence of real rows to length T with sentinel rows,
as AugmentedDataset does (torch.cat([segs, pad_tensor])). -/
def padTo (T : ℕ) (rows : List Row6) : List Row6 :=
  rows ++ List.replicate (T - rows.length) padRow

/-- The padding flag computed by collate_fn, line 553:
padding_mask = parent_bezier[:, :, 0] < 0 (only coordinate 0 is tested). -/
def collate_padding_flag (r : Row6) : Bool :=
  decide (r.c1x < 0)

/-- The padding test inside SimpleShapeEncoder.forward, line 706:
is_padding_segment = (shape_pts == -1).all(dim=2) (the full 6-tuple). -/
def is_padding_segment (r : Row6) : Bool :=
  decide (r.c1x = -1) && decide (r.c1y = -1) && decide (r.c2x = -1) &&
  decide (r.c2y = -1) && decide (r.ex = -1) && decide (r.ey = -1)

/-- The per-sample length SimpleShapeEncoder.forward derives, lines 707-711:
the index of the first padding row, or the full length when none exists. -/
def actual_length (rows : List Row6) : ℕ :=
  rows.findIdx is_padding_segment

/-- The encoder validity mask, line 715: position s is valid iff
s < actual_length. -/
def valid_segment_mask (rows : List Row6) (s : ℕ) : Bool :=
  decide (s < actual_length rows)

/-- Ground-truth type decode in train_batch, lines 1117-1124: Line when both
control pairs are negative, Quadratic when only the first is, Cubic
otherwise (labels 0, 1, 2). -/
def gtTypeRow (r : Row6) : ℕ :=
  let c1neg := r.c1x < 0 ∧ r.c1y < 0
  let c2neg := r.c2x < 0 ∧ r.c2y < 0
  let lineM := c1neg ∧ c2neg
  let quadM := c1neg ∧ ¬c2neg
  if ¬(lineM ∨ quadM) then 2 else if quadM then 1 else 0

/-- The validity-mask entry of train_batch, line 1052:
valid_mask[b, s] = 1.0 iff s < lengths[b], else 0.0. -/
def valid_mask_entry (lengths : ℕ → ℕ) (b s : ℕ) : ℚ :=
  if s < lengths b then 1 else 0

/-- The validity mask as a matrix, for concrete batches (row b is the mask
over positions 0..S-1 for sample b). -/
def valid_mask_matrix (lengths : List ℕ) (S : ℕ) : List (List ℚ) :=
  lengths.map (fun L => (List.range S).map (fun s => if s < L then (1 : ℚ) else 0))

/-- Numerator of the coordinate loss of train_batch, line 1063: the sum of
err = |pred - gt| * mask over the comparison window min S T_gt and all 6
coordinates. -/
def curve_err_sum (B S Tgt : ℕ) (pred gt : ℕ → ℕ → ℕ → ℚ) (lengths : ℕ → ℕ) : ℚ :=
  ∑ b ∈ Finset.range B, ∑ s ∈ Finset.range (min S Tgt), ∑ c ∈ Finset.range 6,
    |pred b s c - gt b s c| * valid_mask_entry lengths b s

/-- Denominator of the coordinate loss, line 1064:
num_valid_coords = (mask_for_curve.sum() * 6).clamp(min=1e-9). -/
def num_valid_coords (B S Tgt : ℕ) (lengths : ℕ → ℕ) : ℚ :=
  max ((∑ b ∈ Finset.range B, ∑ s ∈ Finset.range (min S Tgt),
        valid_mask_entry lengths b s) * 6) (1 / 1000000000)

/-- The coordinate loss of train_batch, line 1065:
loss_curve = lambda_curve * (err.sum() / num_valid_coords) * geom_scale. -/
def loss_curve (lambdaCurve geomScale : ℚ) (B S Tgt : ℕ)
    (pred gt : ℕ → ℕ → ℕ → ℚ) (lengths : ℕ → ℕ) : ℚ :=
  lambdaCurve * (curve_err_sum B S Tgt pred gt lengths
    / num_valid_coords B S Tgt lengths) * geomScale

/-- Running products of a list, as torch.cumprod:
cumprodQ [a, b, c] = [a, a*b, a*b*c]. -/
def cumprodQ (l : List ℚ) : List ℚ :=
  (l.scanl (· * ·) 1).tail

/-- Expected sequence length in train_batch, lines 1084-1097: for S ≥ 2 the
sum of the running products of [1, 1-p0, ..., 1-p(S-2)]; hardcoded to 1
when S = 1 and to 0 when S = 0. -/
def expected_length (S : ℕ) (stops : ℕ → ℚ) : ℚ :=
  if S = 0 then 0
  else if S = 1 then 1
  else
    (cumprodQ (1 :: (List.range (S - 1)).map (fun i => 1 - stops i))).sum

/-- The expected-length loss of train_batch, line 1099:
loss_count = lambda_len * (expected_length - lengths).abs().mean() * geom_scale. -/
def loss_count (lambdaLen geomScale : ℚ) (B S : ℕ)
    (stops : ℕ → ℕ → ℚ) (lengths : ℕ → ℚ) : ℚ :=
  lambdaLen * ((∑ b ∈ Finset.range B,
    |expected_length S (stops b) - lengths b|) / B) * geomScale

/-- The survival-sum formula the spec states for the expected length: the sum
over steps k of the probability of surviving past step k, the cumulative
product over earlier steps of (1 - stop), with survival probability 1 at
step 0. -/
def survival_sum (S : ℕ) (stops : ℕ → ℚ) : ℚ :=
  ∑ k ∈ Finset.range S, ∏ i ∈ Finset.range k, (1 - stops i)

/-- The guarded type-classification loss of train_batch, lines 1137-1144,
over the selected logit rows and label rows (which upstream alignment is
supposed to keep of equal count). Returns (loss contribution, warning
emitted). `ce` stands for F.cross_entropy, an external transcendental
routine, evaluated only in the equal-count branch. -/
def loss_type_guarded (lambdaType geomScale : ℚ)
    (ce : List (ℚ × ℚ × ℚ) → List ℕ → ℚ)
    (logits : List (ℚ × ℚ × ℚ)) (labels : List ℕ) : ℚ × Bool :=
  if 0 < logits.length then
    if logits.length = labels.length then
      (lambdaType * ce logits labels * geomScale, false)
    else
      (0, true)
  else
    (0, false)

/-- The total loss of train_batch, line 1147, as a function of the four
terms. -/
def total_loss (lc ls lcnt lt : ℚ) : ℚ := lc + ls + lcnt + lt

/-- First index of the maximum of a list, as np.argmax resolves it (first
occurrence of the maximum value); 0 on the empty list. -/
def argmaxQ : List ℚ → ℕ
  | [] => 0
  | [_] => 0
  | x :: y :: rest =>
    if (y :: rest).getD (argmaxQ (y :: rest)) 0 > x then argmaxQ (y :: rest) + 1
    else 0

/-- Consecutive differences of a point list, as np.diff(segment, axis=0). -/
def seg_diffs (seg : List Pt) : List Pt :=
  List.zipWith (fun a b => (b.1 - a.1, b.2 - a.2)) seg seg.tail

/-- Polyline arc length under the abstracted 2-vector norm hyp. -/
def arc_length (hyp : ℚ → ℚ → ℚ) (seg : List Pt) : ℚ :=
  ((seg_diffs seg).map (fun v => hyp v.1 v.2)).sum

/-- measure_complexity (lines 237-240): arc length over chord length when the
chord exceeds 1e-8, else 1.0. -/
def measure_complexity (hyp : ℚ → ℚ → ℚ) (seg : List Pt) : ℚ :=
  let chord := hyp ((seg.getLastD (0, 0)).1 - (seg.headD (0, 0)).1)
                   ((seg.getLastD (0, 0)).2 - (seg.headD (0, 0)).2)
  if chord > 1 / 100000000 then arc_length hyp seg / chord else 1

/-- find_max_deviation_point (lines 242-251): none models the Python
(None, 0.0) return when the chord norm is below 1e-8; otherwise the first
index of maximum absolute deviation along the chord normal, and that
deviation (the normal is the unit chord rotated, so each deviation is
|dot(pt - p0, (-dy/L, dx/L))|). -/
def find_max_deviation_point (hyp : ℚ → ℚ → ℚ) (seg : List Pt) : Option ℕ × ℚ :=
  let p0 := seg.headD (0, 0)
  let p1 := seg.getLastD (0, 0)
  let dx := p1.1 - p0.1
  let dy := p1.2 - p0.2
  let L := hyp dx dy
  if L < 1 / 100000000 then (none, 0)
  else
    let devs := seg.map
      (fun p => |(p.1 - p0.1) * (-dy / L) + (p.2 - p0.2) * (dx / L)|)
    (some (argmaxQ devs), devs.getD (argmaxQ devs) 0)

/-- fit_quadratic_bezier (lines 225-234): endpoints are the first and last
input points; the control point comes from a scipy Powell minimization, an
external derivative-free numeric routine modelled by the parameter fitCtrl
(no claim depends on its value). -/
def fit_quadratic_bezier (fitCtrl : List Pt → Pt) (seg : List Pt) :
    Pt × Pt × Pt :=
  (seg.headD (0, 0), fitCtrl seg, seg.getLastD (0, 0))

/-- split_and_fit (lines 254-273): the recursive adaptive fitter. Each output
tuple is (p0, ctrl, p2, type flag) with flag 0 for a straight line and 1
for a fitted quadratic. In the branch where find_max_deviation_point
returned None and dev = 0 exceeds threshold_dev (only possible for a
negative threshold_dev), Python raises TypeError at segment[:idx+1]; that
dead branch is modelled as []. -/
def split_and_fit (hyp : ℚ → ℚ → ℚ) (fitCtrl : List Pt → Pt)
    (thrC thrD : ℚ) (seg : List Pt) : List (Pt × Pt × Pt × ℕ) :=
  if measure_complexity hyp seg ≤ thrC then
    [(seg.headD (0, 0), seg.headD (0, 0), seg.getLastD (0, 0), 0)]
  else
    match hfm : find_max_deviation_point hyp seg with
    | (none, dev) =>
      if dev ≤ thrD then
        [(seg.headD (0, 0), fitCtrl seg, seg.getLastD (0, 0), 1)]
      else []
    | (some idx, dev) =>
      if hg : dev ≤ thrD ∨ idx = 0 ∨ idx = seg.length - 1 then
        [(seg.headD (0, 0), fitCtrl seg, seg.getLastD (0, 0), 1)]
      else
        split_and_fit hyp fitCtrl thrC thrD (seg.take (idx + 1)) ++
          split_and_fit hyp fitCtrl thrC thrD (seg.drop idx)
termination_by seg.length
decreasing_by
all_goals {
  have hb : ∀ l : List ℚ, l ≠ [] → argmaxQ l < l.length := by
    intro l
    induction l with
    | nil => intro hne; exact absurd rfl hne
    | cons x xs ih =>
      intro _
      cases xs with
      | nil => simp [argmaxQ]
      | cons y rest =>
        simp only [argmaxQ]
        split
        · exact Nat.succ_lt_succ (ih (by simp))
        · simp
  push_neg at hg
  obtain ⟨hd, h0, hlast⟩ := hg
  simp only [find_max_deviation_point] at hfm
  split at hfm
  · simp at hfm
  · simp only [Prod.mk.injEq, Option.some.injEq] at hfm
    obtain ⟨hidx, -⟩ := hfm
    by_cases hseg : seg = []
    · rw [hseg] at hidx
      simp [argmaxQ] at hidx
      exact absurd hidx.symm h0
    · obtain ⟨devs, hdevs, hidx2⟩ : ∃ devs : List ℚ,
          devs.length = seg.length ∧ argmaxQ devs = idx :=
        ⟨_, List.length_map _ _, hidx⟩
      have hne : devs ≠ [] := by
        intro hd0
        rw [hd0] at hdevs
        exact hseg (List.length_eq_zero.mp hdevs.symm)
      have hlt : idx < seg.length := by
        rw [← hidx2, ← hdevs]
        exact hb devs hne
      simp only [List.length_take, List.length_drop]
      omega
}

/-- The recursion depth of split_and_fit: 1 at every non-splitting call,
1 plus the larger recursive depth at a splitting call. -/
def saf_depth (hyp : ℚ → ℚ → ℚ) (thrC thrD : ℚ) (seg : List Pt) : ℕ :=
  if measure_complexity hyp seg ≤ thrC then 1
  else
    match hfm : find_max_deviation_point hyp seg with
    | (none, _) => 1
    | (some idx, dev) =>
      if hg : dev ≤ thrD ∨ idx = 0 ∨ idx = seg.length - 1 then 1
      else
        1 + max (saf_depth hyp thrC thrD (seg.take (idx + 1)))
          (saf_depth hyp thrC thrD (seg.drop idx))
termination_by seg.length
decreasing_by
all_goals {
  have hb : ∀ l : List ℚ, l ≠ [] → argmaxQ l < l.length := by
    intro l
    induction l with
    | nil => intro hne; exact absurd rfl hne
    | cons x xs ih =>
      intro _
      cases xs with
      | nil => simp [argmaxQ]
      | cons y rest =>
        simp only [argmaxQ]
        split
        · exact Nat.succ_lt_succ (ih (by simp))
        · simp
  push_neg at hg
  obtain ⟨hd, h0, hlast⟩ := hg
  simp only [find_max_deviation_point] at hfm
  split at hfm
  · simp at hfm
  · simp only [Prod.mk.injEq, Option.some.injEq] at hfm
    obtain ⟨hidx, -⟩ := hfm
    by_cases hseg : seg = []
    · rw [hseg] at hidx
      simp [argmaxQ] at hidx
      exact absurd hidx.symm h0
    · obtain ⟨devs, hdevs, hidx2⟩ : ∃ devs : List ℚ,
          devs.length = seg.length ∧ argmaxQ devs = idx :=
        ⟨_, List.length_map _ _, hidx⟩
      have hne : devs ≠ [] := by
        intro hd0
        rw [hd0] at hdevs
        exact hseg (List.length_eq_zero.mp hdevs.symm)
      have hlt : idx < seg.length := by
        rw [← hidx2, ← hdevs]
        exact hb devs hne
      simp only [List.length_take, List.length_drop]
      omega
}

/-- n uniformly spaced parameter values in [0, 1], as np.linspace(0, 1, n). -/
def linspace01 (n : ℕ) : List ℚ :=
  if n = 1 then [0]
  else (List.range n).map (fun k => (k : ℚ) / ((n : ℚ) - 1))

/-- The degree-3 Bezier parametric formula at parameter t. -/
def cubicPoint (p0 c1 c2 p1 : Pt) (t : ℚ) : Pt :=
  ((1 - t) ^ 3 * p0.1 + 3 * (1 - t) ^ 2 * t * c1.1 +
     3 * (1 - t) * t ^ 2 * c2.1 + t ^ 3 * p1.1,
   (1 - t) ^ 3 * p0.2 + 3 * (1 - t) ^ 2 * t * c1.2 +
     3 * (1 - t) * t ^ 2 * c2.2 + t ^ 3 * p1.2)

/-- The degree-2 Bezier parametric formula at parameter t. -/
def quadPoint (p0 c p1 : Pt) (t : ℚ) : Pt :=
  ((1 - t) ^ 2 * p0.1 + 2 * (1 - t) * t * c.1 + t ^ 2 * p1.1,
   (1 - t) ^ 2 * p0.2 + 2 * (1 - t) * t * c.2 + t ^ 2 * p1.2)

/-- The degree-1 Bezier (straight line) parametric formula at parameter t;
stated by the spec for Line rows, used for comparison with the code. -/
def linePoint (p0 p1 : Pt) (t : ℚ) : Pt :=
  ((1 - t) * p0.1 + t * p1.1, (1 - t) * p0.2 + t * p1.2)

/-- bezier_curve (lines 1424-1431): n_points samples of the cubic formula. -/
def bezier_curve (p0 c1 c2 p1 : Pt) (n : ℕ) : List Pt :=
  (linspace01 n).map (cubicPoint p0 c1 c2 p1)

/-- The loop body of render_bezier_sequence (lines 1447-1454): every row is
sampled with bezier_curve (the cubic formula) from the running start point;
all samples of the first segment are kept, later segments drop their first
sample; the running start point becomes the row endpoint. -/
def rbs_go (n : ℕ) (rows : List Row6) (cur : Pt) (isFirst : Bool) : List Pt :=
  match rows with
  | [] => []
  | r :: rest =>
    let block := bezier_curve cur (r.c1x, r.c1y) (r.c2x, r.c2y) (r.ex, r.ey) n
    (if isFirst then block else block.tail) ++ rbs_go n rest (r.ex, r.ey) false

/-- render_bezier_sequence (lines 1433-1459). -/
def render_bezier_sequence (rows : List Row6) (initialP0 : Pt) (n : ℕ) :
    List Pt :=
  rbs_go n rows initialP0 true

/-- Closed-form description of what the code renders: segment i is the cubic
sampled from the endpoint of row i-1 (the supplied initial point for
i = 0), the duplicate joint sample dropped on every segment after the
first. -/
def direct_cubic_render (rows : List Row6) (initialP0 : Pt) (n : ℕ) :
    List Pt :=
  ((List.range rows.length).map (fun i =>
    let r := rows.getD i padRow
    let st := if i = 0 then initialP0 else (rows.getD (i - 1) padRow).endPt
    let block := bezier_curve st (r.c1x, r.c1y) (r.c2x, r.c2y) (r.ex, r.ey) n
    if i = 0 then block else block.tail)).flatten

/-- render_segment (lines 1466-1481): type 0 yields just the 2-point
polyline [start, end]; type 1 samples the quadratic formula with the
second control pair as control point; any other type samples the cubic
formula. -/
def render_segment (startPt : Pt) (r : Row6) (segType : ℕ) (steps : ℕ) :
    List Pt :=
  if segType = 0 then [startPt, (r.ex, r.ey)]
  else if segType = 1 then
    (linspace01 steps).map (quadPoint startPt (r.c2x, r.c2y) (r.ex, r.ey))
  else
    (linspace01 steps).map
      (cubicPoint startPt (r.c1x, r.c1y) (r.c2x, r.c2y) (r.ex, r.ey))

/-- The sentinel type inference of the ground-truth visualizer (lines
1533-1534): count the -1 entries among the four control coordinates;
4 means Line, 2 means Quadratic, anything else Cubic. -/
def infer_type_negs (r : Row6) : ℕ :=
  let negs := (if r.c1x = -1 then 1 else 0) + (if r.c1y = -1 then 1 else 0) +
    (if r.c2x = -1 then 1 else 0) + (if r.c2y = -1 then 1 else 0)
  if negs = 4 then 0 else if negs = 2 then 1 else 2

/-- A concrete absolutely homogeneous nonnegative norm (the L1 norm of the
2-vector), used to instantiate the abstract hyp parameter in witnesses. -/
def hypL1 (dx dy : ℚ) : ℚ := |dx| + |dy|

/-- Running sums of a list, as np.cumsum. -/
def cumsumQ (l : List ℚ) : List ℚ :=
  (l.scanl (· + ·) 0).tail

/-- Python list indexing: a nonnegative index reads from the front, a
negative index wraps from the back, out of range is none (IndexError). -/
def pyGet {α : Type} (l : List α) (i : ℤ) : Option α :=
  if 0 ≤ i then l[i.toNat]?
  else if (-i).toNat ≤ l.length then l[l.length - (-i).toNat]?
  else none

/-- The closed-loop edge vectors of a polygon: edges = vstack([verts,
verts[0]]), vecs = edges[1:] - edges[:-1]. -/
def edge_vecs (vs : List Pt) : List Pt :=
  List.zipWith (fun a b => (b.1 - a.1, b.2 - a.2))
    (vs ++ [vs.headD (0, 0)]) ((vs ++ [vs.headD (0, 0)]).tail)

/-- The closed-loop edge lengths under the abstracted norm. -/
def edge_lens (hyp : ℚ → ℚ → ℚ) (vs : List Pt) : List ℚ :=
  (edge_vecs vs).map (fun v => hyp v.1 v.2)

/-- The closed-loop perimeter. -/
def perim_of (hyp : ℚ → ℚ → ℚ) (vs : List Pt) : ℚ :=
  (edge_lens hyp vs).sum

/-- The target arc-length distances of the CPU sampler (line 70):
np.linspace(0, perim, extra, endpoint=False), that is perim * k / extra. -/
def boundary_dists (hyp : ℚ → ℚ → ℚ) (vs : List Pt) (extra : ℕ) : List ℚ :=
  (List.range extra).map (fun k : ℕ => perim_of hyp vs * (k : ℚ) / (extra : ℚ))

/-- One arc-length interpolation step of the CPU sampler (lines 71-76):
i = searchsorted(cum, d, right) - 1 (count of cumulative distances ≤ d,
minus one), then verts[i] + t * vecs[i] with t = (d - cum[i]) /
(lens[i] + 1e-12); none models the Python IndexError when i is out of
range (a degenerate polygon whose perimeter does not exceed every d). -/
def boundary_interp (hyp : ℚ → ℚ → ℚ) (vs : List Pt) (d : ℚ) : Option Pt :=
  let lens := edge_lens hyp vs
  let cum := 0 :: cumsumQ lens
  let i : ℤ := (cum.countP (fun c => decide (c ≤ d)) : ℤ) - 1
  match pyGet cum i, pyGet lens i, pyGet (edge_vecs vs) i, pyGet vs i with
  | some ci, some li, some vi, some pv =>
    some (pv.1 + ((d - ci) / (li + 1 / 1000000000000)) * vi.1,
          pv.2 + ((d - ci) / (li + 1 / 1000000000000)) * vi.2)
  | _, _, _, _ => none

/-- The evenly-spaced extra boundary points of the CPU sampler (lines
62-76). -/
def boundary_extras (hyp : ℚ → ℚ → ℚ) (vs : List Pt) (extra : ℕ) :
    Option (List Pt) :=
  (boundary_dists hyp vs extra).mapM (boundary_interp hyp vs)

/-- Stage 1 of the CPU sampler (lines 55-76): up to N_boundary polygon
vertices, then arc-length interpolated extras; an empty list when the
branch guard (N_boundary > 0 and at least two vertices) fails. -/
def boundary_points (hyp : ℚ → ℚ → ℚ) (verts : Option (List Pt))
    (NBoundary : ℕ) : Option (List Pt) :=
  match verts with
  | some vs =>
    if 0 < NBoundary ∧ 2 ≤ vs.length then
      let takeVerts := min vs.length NBoundary
      let extra := NBoundary - takeVerts
      if 0 < extra then
        match boundary_extras hyp vs extra with
        | some ex => some (vs.take takeVerts ++ ex)
        | none => none
      else some (vs.take takeVerts)
    else some []
  | none => some []

/-- The foreground pixels of a mask as (x, y) pairs, in the row-major order
np.where produces. -/
def maskPixels (m : List (List Bool)) : List (ℕ × ℕ) :=
  (m.enum.map (fun yr =>
    yr.2.enum.filterMap (fun xb =>
      if xb.2 then some (xb.1, yr.1) else none))).flatten

/-- The coordinate normalization of interior points (lines 89-90):
x / (W - 1 + 1e-9) * sx and y / (H - 1 + 1e-9) * sy. -/
def pix_scale (W H : ℕ) (sx sy : ℚ) (q : ℕ × ℕ) : Pt :=
  (((q.1 : ℚ) / ((W : ℚ) - 1 + 1 / 1000000000)) * sx,
   ((q.2 : ℚ) / ((H : ℚ) - 1 + 1 / 1000000000)) * sy)

/-- int(np.linspace(0, maxIdx, needed))[k]: the exact rational value
truncated to an integer (floor, all values being nonnegative). -/
def lin_idx (maxIdx needed k : ℕ) : ℕ :=
  if needed = 1 then 0 else maxIdx * k / (needed - 1)

/-- Ceiling of the square root of a natural number, as
int(np.ceil(np.sqrt(n))). -/
def ceil_sqrt (n : ℕ) : ℕ :=
  if Nat.sqrt n * Nat.sqrt n = n then Nat.sqrt n else Nat.sqrt n + 1

/-- np.linspace(a, b, num) and torch.linspace(a, b, num): num values evenly
spaced from a to b, endpoints included. -/
def linspaceQ (a b : ℚ) (num : ℕ) : List ℚ :=
  if num = 1 then [a]
  else (List.range num).map (fun k : ℕ => a + (b - a) * (k : ℚ) / ((num : ℚ) - 1))

/-- The grid fallback of the CPU sampler (lines 101-109): a side × side
meshgrid over the canvas in row-major (xy-indexing) order, normalized and
scaled; the caller truncates to the needed count. -/
def grid_points (W H side : ℕ) (sx sy : ℚ) : List Pt :=
  ((linspaceQ 0 ((H : ℚ) - 1) side).map (fun y =>
    (linspaceQ 0 ((W : ℚ) - 1) side).map (fun x =>
      ((x / ((W : ℚ) - 1 + 1 / 1000000000)) * sx,
       (y / ((H : ℚ) - 1 + 1 / 1000000000)) * sy)))).flatten

/-- Stage 2 of the CPU sampler (lines 78-109): uniformly subsampled interior
mask pixels, else boundary vertices reused cyclically, else the canvas
grid; empty when nothing more is needed or no mask was given. -/
def interior_points (verts : Option (List Pt)) (mask : Option (List (List Bool)))
    (needed W H : ℕ) (sx sy : ℚ) : List Pt :=
  if 0 < needed then
    match mask with
    | some m =>
      let pixels := maskPixels m
      if 0 < pixels.length then
        (List.range needed).map (fun k =>
          pix_scale W H sx sy
            (pixels.getD (lin_idx (pixels.length - 1) needed k) (0, 0)))
      else
        match verts with
        | some vs =>
          if 0 < vs.length then
            (List.range needed).map (fun k => vs.getD (k % vs.length) (0, 0))
          else (grid_points W H (ceil_sqrt needed) sx sy).take needed
        | none => (grid_points W H (ceil_sqrt needed) sx sy).take needed
    | none => []
  else []

/-- generate_deterministic_context_points (lines 36-115), the CPU Mask
Sampler: boundary stage, interior stage, then truncation; none where
Python raises. -/
def generate_deterministic_context_points (hyp : ℚ → ℚ → ℚ)
    (verts : Option (List Pt)) (mask : Option (List (List Bool)))
    (NTotal NBoundary W H : ℕ) (sx sy : ℚ) : Option (List Pt) :=
  match boundary_points hyp verts NBoundary with
  | none => none
  | some pts1 =>
    let pts := pts1 ++ interior_points verts mask (NTotal - pts1.length) W H sx sy
    some (if NTotal < pts.length then pts.take NTotal else pts)

/-- A point produced by one of the genuine sampling computations of the CPU
sampler: a polygon vertex, an arc-length interpolated boundary point, a
scaled interior mask pixel, or a scaled canvas grid point. -/
def IsSampledPoint (hyp : ℚ → ℚ → ℚ) (verts : Option (List Pt))
    (m : List (List Bool)) (W H : ℕ) (sx sy : ℚ) (p : Pt) : Prop :=
  (∃ vs, verts = some vs ∧ p ∈ vs) ∨
  (∃ vs d, verts = some vs ∧ boundary_interp hyp vs d = some p) ∨
  (∃ q ∈ maskPixels m, p = pix_scale W H sx sy q) ∨
  (∃ side, p ∈ grid_points W H side sx sy)

/-- Python/torch int() truncation of a rational (toward zero). -/
def rat_trunc (q : ℚ) : ℤ := q.num / (q.den : ℤ)

/-- The extra boundary points of the GPU sampler (lines 134-145):
torch.linspace includes the endpoint, the edge index comes from
torch.bucketize (count of cumulative distances strictly below d) minus
one, clamped into range, so this path is total. -/
def gpu_boundary_extras (hyp : ℚ → ℚ → ℚ) (vs : List Pt) (extra : ℕ) :
    List Pt :=
  let lens := edge_lens hyp vs
  let cum := 0 :: cumsumQ lens
  (linspaceQ 0 (perim_of hyp vs) extra).map (fun d =>
    let i : ℕ := (max 0 (min ((cum.countP (fun c => decide (c < d)) : ℤ) - 1)
      ((lens.length : ℤ) - 1))).toNat
    let t := (d - cum.getD i 0) / (lens.getD i 0 + 1 / 1000000000000)
    ((vs.getD i (0, 0)).1 + ((edge_vecs vs).getD i (0, 0)).1 * t,
     (vs.getD i (0, 0)).2 + ((edge_vecs vs).getD i (0, 0)).2 * t))

/-- The boundary stage of the GPU sampler (lines 128-147): vertices plus
extras when any vertex exists, otherwise N_boundary literal (0, 0)
points. -/
def gpu_boundary (hyp : ℚ → ℚ → ℚ) (verts : Option (List Pt))
    (NBoundary : ℕ) : List Pt :=
  match verts with
  | some V =>
    if 0 < NBoundary ∧ 1 ≤ V.length then
      if V.length < NBoundary then
        V ++ gpu_boundary_extras hyp V (NBoundary - V.length)
      else V
    else List.replicate NBoundary ((0 : ℚ), (0 : ℚ))
  | none => List.replicate NBoundary ((0 : ℚ), (0 : ℚ))

/-- The interior stage of the GPU sampler (lines 149-172): grid candidates
inside the mask, truncated or padded by repeating the last valid point,
then normalized; none models the Python error raised by
valid[-1:].expand(...) when no candidate is inside the mask. -/
def gpu_interior (mask : List (List Bool)) (NInterior : ℕ) :
    Option (List Pt) :=
  if 0 < NInterior then
    let H := mask.length
    let W := (mask.headD []).length
    let g := ceil_sqrt NInterior
    let cand := ((linspaceQ 0 ((H : ℚ) - 1) g).map (fun y =>
      (linspaceQ 0 ((W : ℚ) - 1) g).map (fun x => ((x : ℚ), y)))).flatten
    let valid := cand.filter (fun c =>
      (mask.getD (rat_trunc c.2).toNat []).getD (rat_trunc c.1).toNat false)
    let norm : Pt → Pt := fun c =>
      (c.1 / ((W : ℚ) - 1 + 1 / 1000000000), c.2 / ((H : ℚ) - 1 + 1 / 1000000000))
    if NInterior ≤ valid.length then
      some ((valid.take NInterior).map norm)
    else
      match valid.getLast? with
      | some lastc =>
        some ((valid ++ List.replicate (NInterior - valid.length) lastc).map norm)
      | none => none
  else some []

/-- generate_deterministic_context_points_gpu (lines 118-178), the
accelerated sampler variant: boundary stage, interior stage, padding by
repetition of the last point, truncation to N_total; none where Python
raises. -/
def generate_deterministic_context_points_gpu (hyp : ℚ → ℚ → ℚ)
    (verts : Option (List Pt)) (mask : List (List Bool))
    (NTotal NBoundary NInterior : ℕ) : Option (List Pt) :=
  match gpu_interior mask NInterior with
  | none => none
  | some ptsI =>
    let pts := gpu_boundary hyp verts NBoundary ++ ptsI
    if pts.length < NTotal then
      match pts.getLast? with
      | some lastp =>
        some ((pts ++ List.replicate (NTotal - pts.length) lastp).take NTotal)
      | none => none
    else some (pts.take NTotal)

theorem scanl_mul_pull (xs : List ℚ) : ∀ (u v : ℚ),
    (xs.scanl (· * ·) (u * v)).sum = u * (xs.scanl (· * ·) v).sum := by
  induction xs with
  | nil => intro u v; simp [List.scanl]
  | cons x xs ih =>
    intro u v
    simp only [List.scanl, List.sum_cons]
    rw [mul_assoc u v x, ih u (v * x)]
    ring

theorem cumprodQ_cons_sum (a : ℚ) (l : List ℚ) :
    (cumprodQ (a :: l)).sum = a * (cumprodQ (1 :: l)).sum := by
  simp only [cumprodQ, List.scanl, List.tail_cons]
  rw [one_mul, one_mul]
  nth_rewrite 1 [show a = a * 1 by ring]
  rw [scanl_mul_pull l a 1]

theorem cumprodQ_one_cons_sum (l : List ℚ) :
    (cumprodQ (1 :: l)).sum =
      ∑ k ∈ Finset.range (l.length + 1), ∏ i ∈ Finset.range k, l.getD i 1 := by
  induction l with
  | nil => simp [cumprodQ, List.scanl]
  | cons x xs ih =>
    have step : (cumprodQ (1 :: x :: xs)).sum = 1 + (cumprodQ (x :: xs)).sum := by
      simp [cumprodQ, List.scanl, one_mul]
    rw [step, cumprodQ_cons_sum, ih]
    simp only [List.length_cons]
    conv_rhs => rw [Finset.sum_range_succ']
    have hshift : ∀ k, (∏ i ∈ Finset.range (k + 1), (x :: xs).getD i 1)
        = (∏ i ∈ Finset.range k, xs.getD i 1) * x := by
      intro k
      rw [Finset.prod_range_succ']
      simp [List.getD_cons_succ, List.getD_cons_zero]
    simp only [hshift]
    rw [← Finset.sum_mul, Finset.prod_range_zero]
    ring

theorem findIdx_append_of_forall_false (p : Row6 → Bool) (l1 l2 : List Row6)
    (h : ∀ r ∈ l1, p r = false) :
    (l1 ++ l2).findIdx p = l1.length + l2.findIdx p := by
  induction l1 with
  | nil => simp
  | cons a l ih =>
    simp only [List.cons_append, List.findIdx_cons, h a (by simp), cond_false]
    rw [ih (fun r hr => h r (by simp [hr]))]
    simp only [List.length_cons]
    omega

theorem getD_replicate_of_lt {α : Type} (a d : α) (k m : ℕ) (h : k < m) :
    (List.replicate m a).getD k d = a := by
  induction m generalizing k with
  | zero => omega
  | succ m ih =>
    cases k with
    | zero => simp [List.replicate]
    | succ k => simpa [List.replicate] using ih k (by omega)

/-- C1 (amended): a padding row appended by the dataset padding has all six
entries equal to -1. The parent-shape encoder tests the full 6-tuple and,
as long as no real row is entirely -1, classifies exactly the rows at
positions ≥ length as padding; the batch collator instead tests only the
first coordinate (c1x < 0), so besides every padded position it also flags
every real Line or Quadratic row, whose first control pair is the
sentinel. -/
theorem padding_convention_amended :
    (∀ (rows : List Row6) (T : ℕ), rows.length ≤ T →
      (∀ r ∈ rows, is_padding_segment r = false) →
      actual_length (padTo T rows) = rows.length ∧
      (∀ s : ℕ, valid_segment_mask (padTo T rows) s = decide (s < rows.length)) ∧
      (∀ i : ℕ, rows.length ≤ i → i < T →
        collate_padding_flag ((padTo T rows).getD i padRow) = true)) ∧
    (∀ r : Row6, gtTypeRow r = 0 ∨ gtTypeRow r = 1 →
      collate_padding_flag r = true) := by
  constructor
  · intro rows T hT hreal
    have hlen : actual_length (padTo T rows) = rows.length := by
      unfold actual_length padTo
      rw [findIdx_append_of_forall_false _ _ _ hreal]
      rcases Nat.eq_zero_or_pos (T - rows.length) with h0 | hpos
      · simp [h0]
      · have : T - rows.length = (T - rows.length - 1) + 1 := by omega
        rw [this, List.replicate_succ, List.findIdx_cons]
        have hp : is_padding_segment padRow = true := by with_unfolding_all rfl
        simp [hp]
    refine ⟨hlen, ?_, ?_⟩
    · intro s
      unfold valid_segment_mask
      rw [hlen]
    · intro i hi hiT
      unfold padTo
      rw [List.getD_append_right _ _ _ _ hi]
      rw [getD_replicate_of_lt _ _ _ _ (by omega)]
      with_unfolding_all rfl
  · intro r hr
    unfold gtTypeRow at hr
    unfold collate_padding_flag
    by_cases h1 : r.c1x < 0 ∧ r.c1y < 0
    · simpa using h1.1
    · exfalso
      by_cases h2 : r.c2x < 0 ∧ r.c2y < 0 <;>
        simp only [h1, h2] at hr <;> simp_all

/-- C1 counterexample: a real Line-typed row (ground-truth type 0, endpoint
(1/2, 1/3)) at position 0 of a length-1 sequence is flagged as padding by
the collator mask (its first coordinate is -1), even though the encoder
test on the full 6-tuple correctly does not flag it: the claimed convention
of detecting padding by the first coordinate pair alone misclassifies real
Line rows, and the two consumers use different tests. -/
theorem padding_convention_cex :
    gtTypeRow ⟨-1, -1, -1, -1, 1/2, 1/3⟩ = 0 ∧
    collate_padding_flag ⟨-1, -1, -1, -1, 1/2, 1/3⟩ = true ∧
    is_padding_segment ⟨-1, -1, -1, -1, 1/2, 1/3⟩ = false ∧
    actual_length (padTo 2 [⟨-1, -1, -1, -1, 1/2, 1/3⟩]) = 1 := by
  refine ⟨?_, ?_, ?_, ?_⟩ <;> with_unfolding_all rfl

theorem padding_convention_witness :
    actual_length (padTo 3 [⟨0, 0, 0, 0, 1, 1⟩]) = 1 ∧
    collate_padding_flag ((padTo 3 [⟨0, 0, 0, 0, 1, 1⟩]).getD 2 padRow) = true :=
  ⟨(padding_convention_amended.1 [⟨0, 0, 0, 0, 1, 1⟩] 3 (by decide)
      (of_decide_eq_true (by with_unfolding_all rfl))).1,
   (padding_convention_amended.1 [⟨0, 0, 0, 0, 1, 1⟩] 3 (by decide)
      (of_decide_eq_true (by with_unfolding_all rfl))).2.2 2 (by decide) (by decide)⟩

/-- C2: the validity mask of train_batch is 1 exactly at positions s <
lengths[b] (concretely [[1,1,1,0,0,0],[1,1,1,1,1,0]] for lengths [3,5] and
S = 6, and the concrete matrix agrees entrywise with the mask formula);
the coordinate loss sums absolute errors over the valid positions of the
min(S, T_gt) comparison window only, and divides by exactly 6 times their
count whenever at least one position is valid (the 1e-9 clamp is inactive
then), so the loss is unchanged under arbitrary perturbation of predicted
or ground-truth values at masked positions, and padded rows enter neither
the numerator nor the denominator. -/
theorem curve_loss_masking :
    (∀ (lengths : ℕ → ℕ) (b s : ℕ),
      (valid_mask_entry lengths b s = 1 ↔ s < lengths b) ∧
      (valid_mask_entry lengths b s = 0 ↔ ¬ s < lengths b)) ∧
    valid_mask_matrix [3, 5] 6 = [[1, 1, 1, 0, 0, 0], [1, 1, 1, 1, 1, 0]] ∧
    (∀ (lengths : List ℕ) (S b s : ℕ), b < lengths.length → s < S →
      ((valid_mask_matrix lengths S).getD b []).getD s 0 =
        valid_mask_entry (fun i => lengths.getD i 0) b s) ∧
    (∀ (B S Tgt : ℕ) (pred gt : ℕ → ℕ → ℕ → ℚ) (lengths : ℕ → ℕ),
      curve_err_sum B S Tgt pred gt lengths =
        ∑ b ∈ Finset.range B,
          ∑ s ∈ (Finset.range (min S Tgt)).filter (fun s => s < lengths b),
            ∑ c ∈ Finset.range 6, |pred b s c - gt b s c|) ∧
    (∀ (B S Tgt : ℕ) (lengths : ℕ → ℕ),
      num_valid_coords B S Tgt lengths =
        max (6 * ∑ b ∈ Finset.range B,
          (((Finset.range (min S Tgt)).filter (fun s => s < lengths b)).card : ℚ))
          (1 / 1000000000)) ∧
    (∀ (B S Tgt : ℕ) (lengths : ℕ → ℕ),
      0 < ∑ b ∈ Finset.range B,
          ((Finset.range (min S Tgt)).filter (fun s => s < lengths b)).card →
      num_valid_coords B S Tgt lengths =
        6 * ∑ b ∈ Finset.range B,
          (((Finset.range (min S Tgt)).filter (fun s => s < lengths b)).card : ℚ)) ∧
    (∀ (lambdaCurve geomScale : ℚ) (B S Tgt : ℕ)
      (pred pred2 gt gt2 : ℕ → ℕ → ℕ → ℚ) (lengths : ℕ → ℕ),
      (∀ b < B, ∀ s < min S Tgt, s < lengths b → ∀ c < 6,
        pred b s c = pred2 b s c ∧ gt b s c = gt2 b s c) →
      loss_curve lambdaCurve geomScale B S Tgt pred gt lengths =
        loss_curve lambdaCurve geomScale B S Tgt pred2 gt2 lengths) := by
  have herr : ∀ (B S Tgt : ℕ) (pred gt : ℕ → ℕ → ℕ → ℚ) (lengths : ℕ → ℕ),
      curve_err_sum B S Tgt pred gt lengths =
        ∑ b ∈ Finset.range B,
          ∑ s ∈ (Finset.range (min S Tgt)).filter (fun s => s < lengths b),
            ∑ c ∈ Finset.range 6, |pred b s c - gt b s c| := by
    intro B S Tgt pred gt lengths
    unfold curve_err_sum
    refine Finset.sum_congr rfl (fun b _ => ?_)
    rw [Finset.sum_filter]
    refine Finset.sum_congr rfl (fun s _ => ?_)
    unfold valid_mask_entry
    by_cases h : s < lengths b <;> simp [h]
  have hden : ∀ (B S Tgt : ℕ) (lengths : ℕ → ℕ),
      num_valid_coords B S Tgt lengths =
        max (6 * ∑ b ∈ Finset.range B,
          (((Finset.range (min S Tgt)).filter (fun s => s < lengths b)).card : ℚ))
          (1 / 1000000000) := by
    intro B S Tgt lengths
    unfold num_valid_coords
    congr 1
    rw [mul_comm]
    congr 1
    refine Finset.sum_congr rfl (fun b _ => ?_)
    rw [Finset.card_filter, Nat.cast_sum]
    refine Finset.sum_congr rfl (fun s _ => ?_)
    unfold valid_mask_entry
    by_cases h : s < lengths b <;> simp [h]
  refine ⟨?_, ?_, ?_, herr, hden, ?_, ?_⟩
  · intro lengths b s
    unfold valid_mask_entry
    by_cases h : s < lengths b <;> simp [h]
  · with_unfolding_all rfl
  · intro lengths S b s hb hs
    unfold valid_mask_matrix valid_mask_entry
    have hb2 : b < (lengths.map fun L =>
        (List.range S).map fun t => if t < L then (1 : ℚ) else 0).length := by
      simpa using hb
    rw [List.getD_eq_getElem _ _ hb2, List.getElem_map]
    have hs2 : s < ((List.range S).map
        fun t => if t < lengths[b] then (1 : ℚ) else 0).length := by
      simpa using hs
    rw [List.getD_eq_getElem _ _ hs2, List.getElem_map, List.getElem_range]
    simp only [List.getD_eq_getElem lengths 0 hb]
  · intro B S Tgt lengths hpos
    rw [hden B S Tgt lengths]
    apply max_eq_left
    have h2 : 1 ≤ ∑ b ∈ Finset.range B,
        ((Finset.range (min S Tgt)).filter (fun s => s < lengths b)).card := hpos
    have h1 : (1 : ℚ) ≤ ∑ b ∈ Finset.range B,
        (((Finset.range (min S Tgt)).filter (fun s => s < lengths b)).card : ℚ) := by
      rw [← Nat.cast_sum]
      exact_mod_cast h2
    linarith
  · intro lambdaCurve geomScale B S Tgt pred pred2 gt gt2 lengths hagree
    have hnum : curve_err_sum B S Tgt pred gt lengths =
        curve_err_sum B S Tgt pred2 gt2 lengths := by
      rw [herr, herr]
      refine Finset.sum_congr rfl (fun b hb => Finset.sum_congr rfl (fun s hs =>
        Finset.sum_congr rfl (fun c hc => ?_)))
      simp only [Finset.mem_range, Finset.mem_filter] at hb hs hc
      obtain ⟨h1, h2⟩ := hagree b hb s hs.1 hs.2 c hc
      rw [h1, h2]
    unfold loss_curve
    rw [hnum]

theorem curve_loss_masking_witness :
    loss_curve 2000 10 2 6 6 (fun b s c => (b + s + c : ℚ)) (fun _ _ _ => 0)
        (fun b => [3, 5].getD b 0) =
      loss_curve 2000 10 2 6 6
        (fun b s c => if b = 0 ∧ s = 4 then 99 else (b + s + c : ℚ))
        (fun _ _ _ => 0) (fun b => [3, 5].getD b 0) :=
  curve_loss_masking.2.2.2.2.2.2 2000 10 2 6 6 _ _ _ _ _
    (of_decide_eq_true (by with_unfolding_all rfl))

/-- C6: the expected sequence length computed by train_batch (running
products of the continue-probabilities, summed, with the S = 0 and S = 1
shortcuts) equals for every S the survival-sum formula: the sum over steps
k < S of the product over i < k of (1 - stop_i), the k = 0 term being the
empty product 1; and the expected-length loss term is lambda_len times the
mean absolute deviation of that quantity from the true length, times the
geometry scale. -/
theorem expected_length_matches_survival_sum :
    (∀ (S : ℕ) (stops : ℕ → ℚ), expected_length S stops = survival_sum S stops) ∧
    (∀ (lambdaLen geomScale : ℚ) (B S : ℕ) (stops : ℕ → ℕ → ℚ) (lengths : ℕ → ℚ),
      loss_count lambdaLen geomScale B S stops lengths =
        lambdaLen * ((∑ b ∈ Finset.range B,
          |survival_sum S (stops b) - lengths b|) / B) * geomScale) := by
  have main : ∀ (S : ℕ) (stops : ℕ → ℚ),
      expected_length S stops = survival_sum S stops := by
    intro S stops
    match S with
    | 0 => simp [expected_length, survival_sum]
    | 1 => simp [expected_length, survival_sum]
    | (n + 2) =>
      unfold expected_length
      rw [if_neg (by omega), if_neg (by omega)]
      rw [cumprodQ_one_cons_sum]
      unfold survival_sum
      simp only [List.length_map, List.length_range]
      have hrange : n + 2 - 1 + 1 = n + 2 := by omega
      rw [hrange]
      refine Finset.sum_congr rfl (fun k hk => ?_)
      refine Finset.prod_congr rfl (fun i hi => ?_)
      simp only [Finset.mem_range] at hk hi
      have hilt : i < n + 1 := by omega
      rw [List.getD_eq_getElem?_getD]
      simp [List.getElem?_map, List.getElem?_range, hilt]
  exact ⟨main, fun lambdaLen geomScale B S stops lengths => by
    unfold loss_count
    simp only [main]⟩

/-- C9 (amended): when the number of selected type-logit rows differs from
the number of inferred type labels, the guarded type-loss computation of
train_batch does not evaluate the cross-entropy at all (so no exception can
arise from it), contributes exactly zero to the total loss, leaving the
other three terms unchanged, and emits the warning exactly when at least
one logit row was selected; a mismatch with zero selected logit rows is
silent (no warning), though still a zero contribution. -/
theorem type_loss_mismatch_amended
    (lambdaType geomScale : ℚ) (ce : List (ℚ × ℚ × ℚ) → List ℕ → ℚ)
    (logits : List (ℚ × ℚ × ℚ)) (labels : List ℕ)
    (hmm : logits.length ≠ labels.length) :
    (loss_type_guarded lambdaType geomScale ce logits labels).1 = 0 ∧
    ((loss_type_guarded lambdaType geomScale ce logits labels).2 = true ↔
      0 < logits.length) ∧
    (∀ ce2, loss_type_guarded lambdaType geomScale ce2 logits labels =
      loss_type_guarded lambdaType geomScale ce logits labels) ∧
    (∀ lc ls lcnt : ℚ,
      total_loss lc ls lcnt
        (loss_type_guarded lambdaType geomScale ce logits labels).1 =
        lc + ls + lcnt) := by
  unfold loss_type_guarded total_loss
  by_cases hpos : 0 < logits.length
  · simp [hpos, hmm]
  · simp [hpos, hmm]

/-- C9 counterexample: a mismatch in which zero logit rows were selected
while one label was inferred produces no warning (the outer numel guard
takes the silent branch), contradicting the claim that a count mismatch
always emits a warning; the contribution is still zero. -/
theorem type_loss_mismatch_cex :
    ([] : List (ℚ × ℚ × ℚ)).length ≠ ([0] : List ℕ).length ∧
    (loss_type_guarded 100 10 (fun _ _ => 0) [] [0]).2 = false ∧
    (loss_type_guarded 100 10 (fun _ _ => 0) [] [0]).1 = 0 := by
  refine ⟨by decide, ?_, ?_⟩ <;> with_unfolding_all rfl

theorem type_loss_mismatch_witness :
    (loss_type_guarded 100 10 (fun _ _ => 37) [(1, 2, 3)] [0, 1]).1 = 0 ∧
    (loss_type_guarded 100 10 (fun _ _ => 37) [(1, 2, 3)] [0, 1]).2 = true :=
  ⟨(type_loss_mismatch_amended 100 10 _ _ _ (by decide)).1,
   ((type_loss_mismatch_amended 100 10 _ _ _ (by decide)).2.1).mpr (by decide)⟩

theorem argmaxQ_lt (l : List ℚ) (h : l ≠ []) : argmaxQ l < l.length := by
  induction l with
  | nil => exact absurd rfl h
  | cons x xs ih =>
    cases xs with
    | nil => simp [argmaxQ]
    | cons y rest =>
      simp only [argmaxQ]
      split
      · exact Nat.succ_lt_succ (ih (by simp))
      · simp

theorem find_max_some_idx_lt (hyp : ℚ → ℚ → ℚ) (seg : List Pt) (idx : ℕ)
    (dev : ℚ) (hfm : find_max_deviation_point hyp seg = (some idx, dev))
    (h0 : idx ≠ 0) : idx < seg.length := by
  simp only [find_max_deviation_point] at hfm
  split at hfm
  · simp at hfm
  · simp only [Prod.mk.injEq, Option.some.injEq] at hfm
    obtain ⟨hidx, -⟩ := hfm
    by_cases hseg : seg = []
    · rw [hseg] at hidx
      simp [argmaxQ] at hidx
      exact absurd hidx.symm h0
    · obtain ⟨devs, hdevs, hidx2⟩ : ∃ devs : List ℚ,
          devs.length = seg.length ∧ argmaxQ devs = idx :=
        ⟨_, List.length_map _ _, hidx⟩
      have hne : devs ≠ [] := by
        intro hd0
        rw [hd0] at hdevs
        exact hseg (List.length_eq_zero.mp hdevs.symm)
      rw [← hidx2, ← hdevs]
      exact argmaxQ_lt devs hne

theorem split_branch_interior (hyp : ℚ → ℚ → ℚ) (seg : List Pt) (idx : ℕ)
    (dev : ℚ) (hfm : find_max_deviation_point hyp seg = (some idx, dev))
    (h0 : idx ≠ 0) (hlast : idx ≠ seg.length - 1) :
    0 < idx ∧ idx + 1 < seg.length ∧
    (seg.take (idx + 1)).length = idx + 1 ∧
    (seg.drop idx).length = seg.length - idx ∧
    (seg.take (idx + 1)).length < seg.length ∧
    (seg.drop idx).length < seg.length ∧
    2 ≤ (seg.take (idx + 1)).length ∧ 2 ≤ (seg.drop idx).length := by
  have hlt := find_max_some_idx_lt hyp seg idx dev hfm h0
  have h2 : idx + 1 < seg.length := by omega
  have htake : (seg.take (idx + 1)).length = idx + 1 := by
    rw [List.length_take]
    exact min_eq_left (by omega)
  have hdrop : (seg.drop idx).length = seg.length - idx := List.length_drop idx seg
  exact ⟨by omega, h2, htake, hdrop, by omega, by omega, by omega, by omega⟩

theorem split_and_fit_line_case (hyp : ℚ → ℚ → ℚ) (fitCtrl : List Pt → Pt)
    (thrC thrD : ℚ) (seg : List Pt)
    (h : measure_complexity hyp seg ≤ thrC) :
    split_and_fit hyp fitCtrl thrC thrD seg =
      [(seg.headD (0, 0), seg.headD (0, 0), seg.getLastD (0, 0), 0)] := by
  rw [split_and_fit]
  exact if_pos h

theorem measure_complexity_two_points (hyp : ℚ → ℚ → ℚ) (thrC : ℚ)
    (h1 : 1 ≤ thrC) (p q : Pt) : measure_complexity hyp [p, q] ≤ thrC := by
  have hml : measure_complexity hyp [p, q] =
      if hyp (q.1 - p.1) (q.2 - p.2) > 1 / 100000000
      then (hyp (q.1 - p.1) (q.2 - p.2) + 0) / hyp (q.1 - p.1) (q.2 - p.2)
      else 1 := rfl
  rw [hml]
  split
  · rename_i hgt
    rw [add_zero, div_self (ne_of_gt (lt_trans (by norm_num) hgt))]
    exact h1
  · exact h1

theorem split_and_fit_two_points (hyp : ℚ → ℚ → ℚ) (fitCtrl : List Pt → Pt)
    (thrC thrD : ℚ) (h1 : 1 ≤ thrC) (p q : Pt) :
    split_and_fit hyp fitCtrl thrC thrD [p, q] = [(p, p, q, 0)] :=
  split_and_fit_line_case hyp fitCtrl thrC thrD [p, q]
    (measure_complexity_two_points hyp thrC h1 p q)

theorem getLastD_default_irrel {α : Type} (l : List α) (a : α) :
    ∀ (d e : α), (a :: l).getLastD d = (a :: l).getLastD e := by
  induction l generalizing a with
  | nil => intro d e; rfl
  | cons b l ih =>
    intro d e
    rw [List.getLastD_cons d a (b :: l), List.getLastD_cons e a (b :: l)]

theorem chain_headD_le_getLastD (ts : List ℚ) (h : ts.Chain' (· ≤ ·)) :
    ts.headD 0 ≤ ts.getLastD 0 := by
  induction ts with
  | nil => simp
  | cons t ts ih =>
    cases ts with
    | nil => simp
    | cons u rest =>
      rw [List.chain'_cons] at h
      have h2 := ih h.2
      rw [List.headD_cons] at h2
      rw [List.headD_cons, List.getLastD_cons 0 t (u :: rest),
        getLastD_default_irrel rest u t 0]
      exact le_trans h.1 h2

theorem headD_map_linear (ax ay vx vy : ℚ) (ts : List ℚ) (h : ts ≠ []) :
    ((ts.map (fun t => (ax + t * vx, ay + t * vy))).headD ((0 : ℚ), (0 : ℚ))) =
      (ax + ts.headD 0 * vx, ay + ts.headD 0 * vy) := by
  cases ts with
  | nil => exact absurd rfl h
  | cons t ts => rfl

theorem getLastD_map_linear (ax ay vx vy : ℚ) (ts : List ℚ) (h : ts ≠ []) :
    ((ts.map (fun t => (ax + t * vx, ay + t * vy))).getLastD ((0 : ℚ), (0 : ℚ))) =
      (ax + ts.getLastD 0 * vx, ay + ts.getLastD 0 * vy) := by
  induction ts with
  | nil => exact absurd rfl h
  | cons t ts ih =>
    cases ts with
    | nil => rfl
    | cons u rest =>
      have ihr := ih (by simp)
      calc ((t :: u :: rest).map (fun t => (ax + t * vx, ay + t * vy))).getLastD
            ((0 : ℚ), (0 : ℚ))
          = ((u :: rest).map (fun t => (ax + t * vx, ay + t * vy))).getLastD
            (ax + t * vx, ay + t * vy) := by
            simp only [List.map_cons, List.getLastD_cons]
        _ = ((u :: rest).map (fun t => (ax + t * vx, ay + t * vy))).getLastD
            ((0 : ℚ), (0 : ℚ)) := by
            simp only [List.map_cons]
            exact getLastD_default_irrel _ _ _ _
        _ = (ax + (u :: rest).getLastD 0 * vx, ay + (u :: rest).getLastD 0 * vy) :=
            ihr
        _ = (ax + (t :: u :: rest).getLastD 0 * vx,
             ay + (t :: u :: rest).getLastD 0 * vy) := by
            rw [List.getLastD_cons 0 t (u :: rest), getLastD_default_irrel rest u t 0]

theorem arc_length_collinear (hyp : ℚ → ℚ → ℚ)
    (hhom : ∀ t c d : ℚ, hyp (t * c) (t * d) = |t| * hyp c d)
    (ax ay vx vy : ℚ) : ∀ (ts : List ℚ), ts.Chain' (· ≤ ·) →
    arc_length hyp (ts.map (fun t => (ax + t * vx, ay + t * vy))) =
      (ts.getLastD 0 - ts.headD 0) * hyp vx vy := by
  intro ts
  induction ts with
  | nil => intro _; simp [arc_length, seg_diffs]
  | cons t ts ih =>
    intro h
    cases ts with
    | nil => simp [arc_length, seg_diffs]
    | cons u rest =>
      rw [List.chain'_cons] at h
      have harc : arc_length hyp
          ((t :: u :: rest).map (fun t => (ax + t * vx, ay + t * vy))) =
          hyp ((ax + u * vx) - (ax + t * vx)) ((ay + u * vy) - (ay + t * vy)) +
          arc_length hyp ((u :: rest).map (fun t => (ax + t * vx, ay + t * vy))) :=
        rfl
      rw [harc, ih h.2]
      rw [show (ax + u * vx) - (ax + t * vx) = (u - t) * vx by ring,
        show (ay + u * vy) - (ay + t * vy) = (u - t) * vy by ring,
        hhom (u - t) vx vy, abs_of_nonneg (sub_nonneg.mpr h.1)]
      rw [List.headD_cons, List.headD_cons, List.getLastD_cons 0 t (u :: rest),
        getLastD_default_irrel rest u t 0]
      ring

theorem measure_complexity_collinear_le (hyp : ℚ → ℚ → ℚ)
    (hhom : ∀ t c d : ℚ, hyp (t * c) (t * d) = |t| * hyp c d)
    (ax ay vx vy thrC : ℚ) (ts : List ℚ) (hch : ts.Chain' (· ≤ ·))
    (hne : ts ≠ []) (h1 : 1 ≤ thrC) :
    measure_complexity hyp (ts.map (fun t => (ax + t * vx, ay + t * vy))) ≤
      thrC := by
  simp only [measure_complexity]
  rw [headD_map_linear ax ay vx vy ts hne, getLastD_map_linear ax ay vx vy ts hne]
  simp only
  rw [show (ax + ts.getLastD 0 * vx) - (ax + ts.headD 0 * vx) =
    (ts.getLastD 0 - ts.headD 0) * vx by ring]
  rw [show (ay + ts.getLastD 0 * vy) - (ay + ts.headD 0 * vy) =
    (ts.getLastD 0 - ts.headD 0) * vy by ring]
  rw [hhom (ts.getLastD 0 - ts.headD 0) vx vy,
    abs_of_nonneg (sub_nonneg.mpr (chain_headD_le_getLastD ts hch))]
  rw [arc_length_collinear hyp hhom ax ay vx vy ts hch]
  split
  · rename_i hgt
    rw [div_self (ne_of_gt (lt_trans (by norm_num) hgt))]
    exact h1
  · exact h1

/-- C7: whenever the straightness metric (arc length over chord length, with
the degenerate-chord value 1.0) is at most threshold_complex, the adaptive
fitter returns exactly one Line-typed tuple whose endpoints are the first
and last input points, the control slot merely repeating the start point;
in particular it does so on every 2-point input and, for any absolutely
homogeneous norm and threshold_complex ≥ 1, on every monotone collinear
input. -/
theorem fitter_line_branch :
    (∀ (hyp : ℚ → ℚ → ℚ) (fitCtrl : List Pt → Pt) (thrC thrD : ℚ)
      (seg : List Pt), measure_complexity hyp seg ≤ thrC →
      split_and_fit hyp fitCtrl thrC thrD seg =
        [(seg.headD (0, 0), seg.headD (0, 0), seg.getLastD (0, 0), 0)]) ∧
    (∀ (hyp : ℚ → ℚ → ℚ) (fitCtrl : List Pt → Pt) (thrC thrD : ℚ),
      1 ≤ thrC → ∀ p q : Pt,
      split_and_fit hyp fitCtrl thrC thrD [p, q] = [(p, p, q, 0)]) ∧
    (∀ (hyp : ℚ → ℚ → ℚ) (fitCtrl : List Pt → Pt) (thrC thrD : ℚ)
      (ts : List ℚ) (a v : Pt),
      (∀ t c d : ℚ, hyp (t * c) (t * d) = |t| * hyp c d) → 1 ≤ thrC →
      ts.Chain' (· ≤ ·) → ts ≠ [] →
      split_and_fit hyp fitCtrl thrC thrD
          (ts.map (fun t => (a.1 + t * v.1, a.2 + t * v.2))) =
        [((a.1 + ts.headD 0 * v.1, a.2 + ts.headD 0 * v.2),
          (a.1 + ts.headD 0 * v.1, a.2 + ts.headD 0 * v.2),
          (a.1 + ts.getLastD 0 * v.1, a.2 + ts.getLastD 0 * v.2), 0)]) := by
  refine ⟨split_and_fit_line_case, split_and_fit_two_points, ?_⟩
  intro hyp fitCtrl thrC thrD ts a v hhom h1 hch hne
  rw [split_and_fit_line_case hyp fitCtrl thrC thrD _
    (measure_complexity_collinear_le hyp hhom a.1 a.2 v.1 v.2 thrC ts hch hne h1)]
  rw [headD_map_linear a.1 a.2 v.1 v.2 ts hne,
    getLastD_map_linear a.1 a.2 v.1 v.2 ts hne]

theorem fitter_line_branch_witness :
    split_and_fit hypL1 (fun _ => ((0 : ℚ), (0 : ℚ))) (101 / 100) (1 / 2)
      ([(0 : ℚ), 1, 3].map (fun t => ((0 : ℚ) + t * 1, (0 : ℚ) + t * 0))) =
      [(((0 : ℚ) + (0 : ℚ) * 1, (0 : ℚ) + (0 : ℚ) * 0),
        ((0 : ℚ) + (0 : ℚ) * 1, (0 : ℚ) + (0 : ℚ) * 0),
        ((0 : ℚ) + (3 : ℚ) * 1, (0 : ℚ) + (3 : ℚ) * 0), 0)] :=
  fitter_line_branch.2.2 hypL1 (fun _ => ((0 : ℚ), (0 : ℚ))) (101 / 100) (1 / 2)
    [(0 : ℚ), 1, 3] ((0 : ℚ), (0 : ℚ)) ((1 : ℚ), (0 : ℚ))
    (fun t c d => by unfold hypL1; rw [abs_mul, abs_mul]; ring)
    (by norm_num)
    (by norm_num [List.chain'_cons, List.chain'_singleton])
    (by simp)

theorem saf_depth_le_length (hyp : ℚ → ℚ → ℚ) (thrC thrD : ℚ) :
    ∀ (n : ℕ) (seg : List Pt), seg.length = n → 1 ≤ seg.length →
      saf_depth hyp thrC thrD seg ≤ seg.length := by
  intro n
  induction n using Nat.strong_induction_on with
  | _ n ih =>
    intro seg hn h1
    rw [saf_depth]
    split
    · omega
    · split
      · omega
      · rename_i idx dev hfm
        split
        · omega
        · rename_i hg
          push_neg at hg
          obtain ⟨hd, h0, hlast⟩ := hg
          obtain ⟨hpos, h2, htake, hdrop, htl, hdl, ht2, hd2⟩ :=
            split_branch_interior hyp seg idx dev hfm h0 hlast
          have r1 := ih (seg.take (idx + 1)).length (by omega)
            (seg.take (idx + 1)) rfl (by omega)
          have r2 := ih (seg.drop idx).length (by omega)
            (seg.drop idx) rfl (by omega)
          have hm : max (saf_depth hyp thrC thrD (seg.take (idx + 1)))
              (saf_depth hyp thrC thrD (seg.drop idx)) ≤ seg.length - 1 := by
            apply max_le <;> omega
          omega

/-- C8: the recursive fitter terminates on every input of at least 2 points:
whenever the splitting branch is taken (a max-deviation index exists, its
deviation exceeds threshold_dev, and it is neither endpoint), the split
index is strictly interior, both recursive calls receive strictly shorter
point sequences (each still of length at least 2), and the recursion depth
is bounded by the point count of the input. -/
theorem fitter_split_interior_depth :
    (∀ (hyp : ℚ → ℚ → ℚ) (thrD : ℚ) (seg : List Pt) (idx : ℕ) (dev : ℚ),
      find_max_deviation_point hyp seg = (some idx, dev) →
      ¬ dev ≤ thrD → idx ≠ 0 → idx ≠ seg.length - 1 →
      0 < idx ∧ idx + 1 < seg.length ∧
      (seg.take (idx + 1)).length < seg.length ∧
      (seg.drop idx).length < seg.length ∧
      2 ≤ (seg.take (idx + 1)).length ∧ 2 ≤ (seg.drop idx).length) ∧
    (∀ (hyp : ℚ → ℚ → ℚ) (thrC thrD : ℚ) (seg : List Pt), 2 ≤ seg.length →
      saf_depth hyp thrC thrD seg ≤ seg.length) := by
  constructor
  · intro hyp thrD seg idx dev hfm _ h0 hlast
    obtain ⟨a, b, -, -, e, f, g, h⟩ :=
      split_branch_interior hyp seg idx dev hfm h0 hlast
    exact ⟨a, b, e, f, g, h⟩
  · intro hyp thrC thrD seg h2
    exact saf_depth_le_length hyp thrC thrD seg.length seg rfl (by omega)

theorem fitter_split_interior_depth_witness :
    ((([((0 : ℚ), (0 : ℚ)), ((1 : ℚ), (1 : ℚ)), ((2 : ℚ), (0 : ℚ))] :
        List Pt).take 2).length <
      ([((0 : ℚ), (0 : ℚ)), ((1 : ℚ), (1 : ℚ)), ((2 : ℚ), (0 : ℚ))] :
        List Pt).length) ∧
    saf_depth hypL1 (101 / 100) (1 / 2)
        [((0 : ℚ), (0 : ℚ)), ((1 : ℚ), (1 : ℚ)), ((2 : ℚ), (0 : ℚ))] ≤
      ([((0 : ℚ), (0 : ℚ)), ((1 : ℚ), (1 : ℚ)), ((2 : ℚ), (0 : ℚ))] :
        List Pt).length :=
  ⟨(fitter_split_interior_depth.1 hypL1 (1 / 2)
      [((0 : ℚ), (0 : ℚ)), ((1 : ℚ), (1 : ℚ)), ((2 : ℚ), (0 : ℚ))] 1 1
      (by with_unfolding_all rfl)
      (of_decide_eq_true (by with_unfolding_all rfl))
      (by decide) (by decide)).2.2.1,
   fitter_split_interior_depth.2 hypL1 (101 / 100) (1 / 2)
      [((0 : ℚ), (0 : ℚ)), ((1 : ℚ), (1 : ℚ)), ((2 : ℚ), (0 : ℚ))] (by decide)⟩

/-- C10: every tuple the recursive fitter split_and_fit returns carries type
flag 0 (Line) or 1 (Quadratic) and never the Cubic flag 2, for every input
and every parameter choice, even though the sentinel decode used for the
3-way type-classification loss distinguishes a third class and maps a row
with a real first control pair to the Cubic label 2. -/
theorem fitter_no_cubic :
    (∀ (hyp : ℚ → ℚ → ℚ) (fitCtrl : List Pt → Pt) (thrC thrD : ℚ)
      (seg : List Pt) (s : Pt × Pt × Pt × ℕ),
      s ∈ split_and_fit hyp fitCtrl thrC thrD seg →
      s.2.2.2 = 0 ∨ s.2.2.2 = 1) ∧
    gtTypeRow ⟨0, 0, 0, 0, 1, 1⟩ = 2 ∧
    gtTypeRow ⟨-1, -1, -1, -1, 1, 1⟩ = 0 ∧
    gtTypeRow ⟨-1, -1, 0, 0, 1, 1⟩ = 1 := by
  refine ⟨?_, ?_, ?_, ?_⟩
  · intro hyp fitCtrl thrC thrD
    suffices hmain : ∀ (n : ℕ) (seg : List Pt), seg.length = n →
        ∀ s ∈ split_and_fit hyp fitCtrl thrC thrD seg,
        s.2.2.2 = 0 ∨ s.2.2.2 = 1 by
      intro seg s hs
      exact hmain seg.length seg rfl s hs
    intro n
    induction n using Nat.strong_induction_on with
    | _ n ih =>
      intro seg hn s hs
      rw [split_and_fit] at hs
      split at hs
      · simp only [List.mem_singleton] at hs
        subst hs
        exact Or.inl rfl
      · split at hs
        · split at hs
          · simp only [List.mem_singleton] at hs
            subst hs
            exact Or.inr rfl
          · simp at hs
        · rename_i idx dev hfm
          split at hs
          · simp only [List.mem_singleton] at hs
            subst hs
            exact Or.inr rfl
          · rename_i hg
            push_neg at hg
            obtain ⟨hd, h0, hlast⟩ := hg
            obtain ⟨-, -, htake, hdrop, htl, hdl, -, -⟩ :=
              split_branch_interior hyp seg idx dev hfm h0 hlast
            rw [List.mem_append] at hs
            rcases hs with hs | hs
            · exact ih (seg.take (idx + 1)).length (by omega) _ rfl s hs
            · exact ih (seg.drop idx).length (by omega) _ rfl s hs
  · with_unfolding_all rfl
  · with_unfolding_all rfl
  · with_unfolding_all rfl

theorem fitter_no_cubic_witness :
    ((((0 : ℚ), (0 : ℚ)), ((0 : ℚ), (0 : ℚ)), ((1 : ℚ), (0 : ℚ)),
      (0 : ℕ)) : Pt × Pt × Pt × ℕ).2.2.2 = 0 ∨
    ((((0 : ℚ), (0 : ℚ)), ((0 : ℚ), (0 : ℚ)), ((1 : ℚ), (0 : ℚ)),
      (0 : ℕ)) : Pt × Pt × Pt × ℕ).2.2.2 = 1 :=
  fitter_no_cubic.1 hypL1 (fun _ => ((0 : ℚ), (0 : ℚ))) (101 / 100) (1 / 2)
    [((0 : ℚ), (0 : ℚ)), ((1 : ℚ), (0 : ℚ))] _
    (by
      rw [split_and_fit_two_points hypL1 (fun _ => ((0 : ℚ), (0 : ℚ)))
        (101 / 100) (1 / 2) (by norm_num) ((0 : ℚ), (0 : ℚ)) ((1 : ℚ), (0 : ℚ))]
      exact List.mem_singleton_self _)

theorem rbs_go_false_eq (n : ℕ) : ∀ (rows : List Row6) (cur : Pt),
    rbs_go n rows cur false =
      ((List.range rows.length).map (fun i =>
        let r := rows.getD i padRow
        let st := if i = 0 then cur else (rows.getD (i - 1) padRow).endPt
        (bezier_curve st (r.c1x, r.c1y) (r.c2x, r.c2y) (r.ex, r.ey) n).tail)).flatten := by
  intro rows
  induction rows with
  | nil => intro cur; rfl
  | cons r rest ih =>
    intro cur
    show (bezier_curve cur (r.c1x, r.c1y) (r.c2x, r.c2y) (r.ex, r.ey) n).tail ++
        rbs_go n rest (r.ex, r.ey) false = _
    rw [ih (r.ex, r.ey)]
    rw [List.length_cons, List.range_succ_eq_map]
    rw [List.map_cons, List.flatten_cons, List.map_map]
    congr 1
    congr 1
    apply List.map_congr_left
    intro i _
    simp only [Function.comp_apply, Nat.succ_eq_add_one, Nat.add_eq_zero,
      one_ne_zero, and_false, if_false, Nat.add_sub_cancel, List.getD_cons_succ]
    by_cases h : i = 0
    · subst h
      simp [Row6.endPt]
    · obtain ⟨j, rfl⟩ : ∃ j, i = j + 1 := ⟨i - 1, by omega⟩
      simp [List.getD_cons_succ]

theorem rbs_eq_direct (rows : List Row6) (p0 : Pt) (n : ℕ) :
    render_bezier_sequence rows p0 n = direct_cubic_render rows p0 n := by
  cases rows with
  | nil => rfl
  | cons r rest =>
    unfold render_bezier_sequence direct_cubic_render
    show bezier_curve p0 (r.c1x, r.c1y) (r.c2x, r.c2y) (r.ex, r.ey) n ++
        rbs_go n rest (r.ex, r.ey) false = _
    rw [rbs_go_false_eq n rest (r.ex, r.ey)]
    rw [List.length_cons, List.range_succ_eq_map]
    rw [List.map_cons, List.flatten_cons, List.map_map]
    congr 1
    congr 1
    apply List.map_congr_left
    intro i _
    simp only [Function.comp_apply, Nat.succ_eq_add_one, Nat.add_eq_zero,
      one_ne_zero, and_false, if_false, Nat.add_sub_cancel, List.getD_cons_succ]
    by_cases h : i = 0
    · subst h
      simp [Row6.endPt]
    · obtain ⟨j, rfl⟩ : ∃ j, i = j + 1 := ⟨i - 1, by omega⟩
      simp [List.getD_cons_succ]

/-- C5 (amended): render_bezier_sequence renders every row with the cubic
(degree-3) formula at n uniformly spaced parameters regardless of the
sentinel pattern of the row, with the running start point being the
endpoint of the previous row (or the supplied initial point for the first
segment) and the duplicate joint sample dropped on every segment after the
first; render_segment uses the formula of the supplied type for Quadratic
(degree 2, control = second control pair) and Cubic (degree 3), sampled at
steps uniform parameters in [0, 1], but renders a Line-typed row as just
the 2-point polyline [start, endpoint], not steps samples of the degree-1
formula. -/
theorem renderer_type_amended :
    (∀ (rows : List Row6) (p0 : Pt) (n : ℕ),
      render_bezier_sequence rows p0 n = direct_cubic_render rows p0 n) ∧
    (∀ (st : Pt) (r : Row6) (steps : ℕ),
      render_segment st r 0 steps = [st, (r.ex, r.ey)] ∧
      (render_segment st r 0 steps).length = 2 ∧
      render_segment st r 1 steps =
        (linspace01 steps).map (quadPoint st (r.c2x, r.c2y) (r.ex, r.ey)) ∧
      render_segment st r 2 steps =
        (linspace01 steps).map
          (cubicPoint st (r.c1x, r.c1y) (r.c2x, r.c2y) (r.ex, r.ey))) :=
  ⟨rbs_eq_direct, fun st r steps => ⟨rfl, rfl, rfl, rfl⟩⟩

/-- C5 counterexample: for the Line row (-1,-1,-1,-1,1,1) (sentinel-inferred
type 0) rendered from (0,0) with 3 samples, render_bezier_sequence yields
(-5/8, -5/8) as its middle sample: the cubic formula applied to the
sentinel control values, not a point of the degree-1 curve, whose formula
gives (1/2, 1/2) at the same parameter. The sequence renderer does not use
the degree matching the inferred type of the row. -/
theorem renderer_cubic_only_cex :
    infer_type_negs ⟨-1, -1, -1, -1, 1, 1⟩ = 0 ∧
    (render_bezier_sequence [⟨-1, -1, -1, -1, 1, 1⟩]
      ((0 : ℚ), (0 : ℚ)) 3).getD 1 ((0 : ℚ), (0 : ℚ)) = (-5/8, -5/8) ∧
    linePoint ((0 : ℚ), (0 : ℚ)) ((1 : ℚ), (1 : ℚ)) (1/2) = (1/2, 1/2) ∧
    ((-5/8 : ℚ), (-5/8 : ℚ)) ≠ ((1/2 : ℚ), (1/2 : ℚ)) := by
  refine ⟨by with_unfolding_all rfl, by with_unfolding_all rfl,
    by with_unfolding_all rfl, of_decide_eq_true (by with_unfolding_all rfl)⟩

/-- C3: the accelerated GPU sampler violates the no-literal-zero-padding
contract: with the polygon vertices absent and N_boundary = 2,
N_interior = 0, N_total = 2 (any mask, any norm), it returns exactly the
two literal zero points (0, 0) - the vertex-absent branch fills the
boundary stage with [[0.0, 0.0]] * N_boundary, so the returned points are
padding, not real sampled boundary or interior points. -/
theorem gpu_sampler_zero_padding_bug :
    ∀ hyp : ℚ → ℚ → ℚ,
    generate_deterministic_context_points_gpu hyp none [[true]] 2 2 0 =
      some [((0 : ℚ), (0 : ℚ)), ((0 : ℚ), (0 : ℚ))] := by
  intro hyp
  with_unfolding_all rfl

theorem mapM_option_spec {α β : Type} (f : α → Option β) :
    ∀ (l : List α), (∀ a ∈ l, ∃ b, f a = some b) →
      ∃ out, l.mapM f = some out ∧ out.length = l.length ∧
        ∀ b ∈ out, ∃ a ∈ l, f a = some b := by
  intro l
  induction l with
  | nil => intro _; exact ⟨[], rfl, rfl, by simp⟩
  | cons a l ih =>
    intro h
    obtain ⟨b, hb⟩ := h a (by simp)
    obtain ⟨out, ho, hl, hm⟩ := ih (fun x hx => h x (by simp [hx]))
    refine ⟨b :: out, ?_, by simp [hl], ?_⟩
    · rw [List.mapM_cons, hb, ho]
      rfl
    · intro c hc
      rcases List.mem_cons.mp hc with rfl | hc
      · exact ⟨a, by simp, hb⟩
      · obtain ⟨x, hx, hfx⟩ := hm c hc
        exact ⟨x, by simp [hx], hfx⟩

theorem pyGet_some {α : Type} (l : List α) (i : ℤ) (h0 : 0 ≤ i)
    (hl : i.toNat < l.length) : ∃ a, pyGet l i = some a := by
  unfold pyGet
  rw [if_pos h0]
  exact ⟨l[i.toNat], List.getElem?_eq_getElem hl⟩

theorem getD_mem_of_lt {α : Type} (l : List α) (i : ℕ) (d : α)
    (h : i < l.length) : l.getD i d ∈ l := by
  rw [List.getD_eq_getElem?_getD, List.getElem?_eq_getElem h]
  exact List.getElem_mem h

theorem scanl_add_tail_mem : ∀ (l : List ℚ) (a : ℚ), l ≠ [] →
    a + l.sum ∈ (l.scanl (· + ·) a).tail := by
  intro l
  induction l with
  | nil => intro a h; exact absurd rfl h
  | cons x xs ih =>
    intro a _
    show a + (x :: xs).sum ∈ xs.scanl (· + ·) (a + x)
    cases xs with
    | nil =>
      simp only [List.scanl, List.sum_cons, List.sum_nil, add_zero,
        List.mem_singleton]
    | cons y ys =>
      have hmem := ih (a + x) (by simp)
      rw [show a + ((x :: y :: ys).sum) = (a + x) + (y :: ys).sum by
        simp [List.sum_cons]; ring]
      exact List.mem_of_mem_tail hmem

theorem sum_mem_cumsumQ (l : List ℚ) (h : l ≠ []) : l.sum ∈ cumsumQ l := by
  have hs := scanl_add_tail_mem l 0 h
  rw [zero_add] at hs
  simpa [cumsumQ] using hs

theorem cumsumQ_length (l : List ℚ) : (cumsumQ l).length = l.length := by
  unfold cumsumQ
  rw [List.length_tail, List.length_scanl]
  omega

theorem edge_vecs_length (vs : List Pt) : (edge_vecs vs).length = vs.length := by
  unfold edge_vecs
  rw [List.length_zipWith, List.length_tail, List.length_append]
  simp only [List.length_singleton]
  omega

theorem boundary_dists_bounds (hyp : ℚ → ℚ → ℚ) (vs : List Pt) (extra : ℕ)
    (hperim : 0 < perim_of hyp vs) :
    ∀ d ∈ boundary_dists hyp vs extra, 0 ≤ d ∧ d < perim_of hyp vs := by
  intro d hd
  unfold boundary_dists at hd
  obtain ⟨k, hk, rfl⟩ := List.mem_map.mp hd
  rw [List.mem_range] at hk
  have hext : (0 : ℚ) < extra := by
    have : 0 < extra := by omega
    exact_mod_cast this
  constructor
  · exact div_nonneg (mul_nonneg hperim.le (Nat.cast_nonneg k)) hext.le
  · rw [div_lt_iff hext]
    have hkq : (k : ℚ) < extra := by exact_mod_cast hk
    calc perim_of hyp vs * k < perim_of hyp vs * extra :=
      mul_lt_mul_of_pos_left hkq hperim
    _ = perim_of hyp vs * extra := rfl

theorem boundary_interp_some (hyp : ℚ → ℚ → ℚ) (vs : List Pt) (d : ℚ)
    (h2 : 2 ≤ vs.length) (hd0 : 0 ≤ d) (hdp : d < perim_of hyp vs) :
    ∃ p, boundary_interp hyp vs d = some p := by
  simp only [boundary_interp]
  have hlens : (edge_lens hyp vs).length = vs.length := by
    unfold edge_lens
    rw [List.length_map, edge_vecs_length]
  have hcum : ((0 : ℚ) :: cumsumQ (edge_lens hyp vs)).length = vs.length + 1 := by
    rw [List.length_cons, cumsumQ_length, hlens]
  set lens := edge_lens hyp vs with hlensdef
  set cum := (0 : ℚ) :: cumsumQ lens with hcumdef
  set cnt := cum.countP (fun c => decide (c ≤ d)) with hcnt
  have hcnt1 : 1 ≤ cnt := by
    rw [hcnt]
    refine List.countP_pos.mpr ⟨0, ?_, by simpa using hd0⟩
    rw [hcumdef]
    exact List.mem_cons_self _ _
  have hcntn : cnt ≤ vs.length := by
    have hle : cnt ≤ cum.length := List.countP_le_length _
    have hne : cnt ≠ cum.length := by
      intro hEq
      have hall := List.countP_eq_length.mp (hcnt ▸ hEq)
      have hmem : perim_of hyp vs ∈ cum := by
        rw [hcumdef]
        refine List.mem_cons_of_mem _ ?_
        have : lens.sum ∈ cumsumQ lens := by
          refine sum_mem_cumsumQ lens ?_
          intro h0
          rw [h0] at hlens
          simp at hlens
          omega
        simpa [perim_of, hlensdef] using this
      have := hall _ hmem
      simp at this
      exact absurd this (not_le.mpr hdp)
    rw [hcum] at hle hne
    omega
  have hi0 : (0 : ℤ) ≤ (cnt : ℤ) - 1 := by omega
  have hiN : ((cnt : ℤ) - 1).toNat = cnt - 1 := by omega
  obtain ⟨ci, hci⟩ := pyGet_some cum ((cnt : ℤ) - 1) hi0
    (by rw [hiN, hcum]; omega)
  obtain ⟨li, hli⟩ := pyGet_some lens ((cnt : ℤ) - 1) hi0
    (by rw [hiN, hlens]; omega)
  obtain ⟨vi, hvi⟩ := pyGet_some (edge_vecs vs) ((cnt : ℤ) - 1) hi0
    (by rw [hiN, edge_vecs_length]; omega)
  obtain ⟨pv, hpv⟩ := pyGet_some vs ((cnt : ℤ) - 1) hi0 (by rw [hiN]; omega)
  rw [hci, hli, hvi, hpv]
  exact ⟨_, rfl⟩

theorem boundary_extras_spec (hyp : ℚ → ℚ → ℚ) (vs : List Pt) (extra : ℕ)
    (h2 : 2 ≤ vs.length) (hperim : 0 < perim_of hyp vs) :
    ∃ ex, boundary_extras hyp vs extra = some ex ∧ ex.length = extra ∧
      ∀ p ∈ ex, ∃ d, boundary_interp hyp vs d = some p := by
  unfold boundary_extras
  obtain ⟨out, ho, hl, hm⟩ := mapM_option_spec (boundary_interp hyp vs)
    (boundary_dists hyp vs extra) (fun d hd => by
      obtain ⟨h0, hp⟩ := boundary_dists_bounds hyp vs extra hperim d hd
      exact boundary_interp_some hyp vs d h2 h0 hp)
  refine ⟨out, ho, ?_, fun p hp => ?_⟩
  · rw [hl]
    unfold boundary_dists
    rw [List.length_map, List.length_range]
  · obtain ⟨dd, -, hint⟩ := hm p hp
    exact ⟨dd, hint⟩

theorem boundary_points_spec (hyp : ℚ → ℚ → ℚ) (verts : Option (List Pt))
    (NBoundary : ℕ)
    (hdeg : ∀ vs, verts = some vs → 2 ≤ vs.length → vs.length < NBoundary →
      0 < perim_of hyp vs) :
    ∃ pts1, boundary_points hyp verts NBoundary = some pts1 ∧
      pts1.length ≤ NBoundary ∧
      ∀ p ∈ pts1, (∃ vs, verts = some vs ∧ p ∈ vs) ∨
        (∃ vs d, verts = some vs ∧ boundary_interp hyp vs d = some p) := by
  match verts with
  | none => exact ⟨[], rfl, by simp, by simp⟩
  | some vs =>
    by_cases hcond : 0 < NBoundary ∧ 2 ≤ vs.length
    · have htv : min vs.length NBoundary ≤ NBoundary := min_le_right _ _
      by_cases hex : 0 < NBoundary - min vs.length NBoundary
      · have hvlt : vs.length < NBoundary := by omega
        have htv2 : min vs.length NBoundary = vs.length := min_eq_left hvlt.le
        have hperim := hdeg vs rfl hcond.2 hvlt
        obtain ⟨ex, hex2, hexlen, hexmem⟩ :=
          boundary_extras_spec hyp vs (NBoundary - min vs.length NBoundary)
            hcond.2 hperim
        refine ⟨vs.take (min vs.length NBoundary) ++ ex, ?_, ?_, ?_⟩
        · simp only [boundary_points]
          rw [if_pos hcond, if_pos hex, hex2]
        · rw [List.length_append, List.length_take, hexlen, htv2]
          omega
        · intro p hp
          rcases List.mem_append.mp hp with hp | hp
          · exact Or.inl ⟨vs, rfl, List.take_subset _ _ hp⟩
          · obtain ⟨dd, hint⟩ := hexmem p hp
            exact Or.inr ⟨vs, dd, rfl, hint⟩
      · refine ⟨vs.take (min vs.length NBoundary), ?_, ?_, ?_⟩
        · simp only [boundary_points]
          rw [if_pos hcond, if_neg hex]
        · calc (vs.take (min vs.length NBoundary)).length
              ≤ min vs.length NBoundary := List.length_take_le _ _
          _ ≤ NBoundary := htv
        · intro p hp
          exact Or.inl ⟨vs, rfl, List.take_subset _ _ hp⟩
    · refine ⟨[], ?_, by simp, by simp⟩
      simp only [boundary_points]
      rw [if_neg hcond]

theorem linspaceQ_length (a b : ℚ) (num : ℕ) :
    (linspaceQ a b num).length = num := by
  unfold linspaceQ
  split
  · rename_i h
    rw [h]
    rfl
  · rw [List.length_map, List.length_range]

theorem grid_points_length (W H side : ℕ) (sx sy : ℚ) :
    (grid_points W H side sx sy).length = side * side := by
  unfold grid_points
  rw [List.length_flatten, List.map_map]
  have hc : ((linspaceQ 0 ((H : ℚ) - 1) side).map
      (List.length ∘ fun y => (linspaceQ 0 ((W : ℚ) - 1) side).map (fun x =>
        ((x / ((W : ℚ) - 1 + 1 / 1000000000)) * sx,
         (y / ((H : ℚ) - 1 + 1 / 1000000000)) * sy)))) =
      List.replicate (linspaceQ 0 ((H : ℚ) - 1) side).length side := by
    rw [List.eq_replicate_iff]
    refine ⟨by rw [List.length_map], ?_⟩
    intro n hn
    obtain ⟨y, -, rfl⟩ := List.mem_map.mp hn
    simp only [Function.comp_apply, List.length_map]
    exact linspaceQ_length _ _ _
  rw [hc, List.sum_replicate, linspaceQ_length, smul_eq_mul]

theorem ceil_sqrt_sq_le (n : ℕ) : n ≤ ceil_sqrt n * ceil_sqrt n := by
  unfold ceil_sqrt
  split
  · rename_i h
    omega
  · have hs := Nat.lt_succ_sqrt n
    rw [Nat.succ_eq_add_one] at hs
    omega

theorem lin_idx_le (maxIdx needed k : ℕ) (hk : k < needed) :
    lin_idx maxIdx needed k ≤ maxIdx := by
  unfold lin_idx
  split
  · omega
  · rename_i h
    have hk2 : k ≤ needed - 1 := by omega
    have hpos : 0 < needed - 1 := by omega
    calc maxIdx * k / (needed - 1) ≤ maxIdx * (needed - 1) / (needed - 1) :=
      Nat.div_le_div_right (Nat.mul_le_mul_left _ hk2)
    _ = maxIdx := Nat.mul_div_cancel maxIdx hpos

theorem interior_points_length (verts : Option (List Pt)) (m : List (List Bool))
    (needed W H : ℕ) (sx sy : ℚ) :
    (interior_points verts (some m) needed W H sx sy).length = needed := by
  have hgrid : ((grid_points W H (ceil_sqrt needed) sx sy).take needed).length
      = needed := by
    rw [List.length_take, grid_points_length]
    exact min_eq_left (ceil_sqrt_sq_le needed)
  simp only [interior_points]
  split
  · split
    · rw [List.length_map, List.length_range]
    · match verts with
      | some vs =>
        simp only
        split
        · rw [List.length_map, List.length_range]
        · exact hgrid
      | none => exact hgrid
  · rename_i hneg
    simp only [List.length_nil]
    omega

theorem interior_points_mem (hyp : ℚ → ℚ → ℚ) (verts : Option (List Pt))
    (m : List (List Bool)) (needed W H : ℕ) (sx sy : ℚ) :
    ∀ p ∈ interior_points verts (some m) needed W H sx sy,
      IsSampledPoint hyp verts m W H sx sy p := by
  intro p hp
  simp only [interior_points] at hp
  split at hp
  · split at hp
    · rename_i hpix
      obtain ⟨k, hk, rfl⟩ := List.mem_map.mp hp
      rw [List.mem_range] at hk
      refine Or.inr (Or.inr (Or.inl ⟨(maskPixels m).getD
        (lin_idx ((maskPixels m).length - 1) needed k) (0, 0), ?_, rfl⟩))
      refine getD_mem_of_lt _ _ _ ?_
      have := lin_idx_le ((maskPixels m).length - 1) needed k hk
      omega
    · have hgridmem : ∀ q ∈ (grid_points W H (ceil_sqrt needed) sx sy).take needed,
          IsSampledPoint hyp verts m W H sx sy q := by
        intro q hq
        exact Or.inr (Or.inr (Or.inr ⟨ceil_sqrt needed, List.take_subset _ _ hq⟩))
      rename_i hnopix
      revert hp
      match verts with
      | some vs =>
        simp only
        split
        · rename_i hvs
          intro hp
          obtain ⟨k, hk, rfl⟩ := List.mem_map.mp hp
          exact Or.inl ⟨vs, rfl, getD_mem_of_lt _ _ _ (Nat.mod_lt _ hvs)⟩
        · exact hgridmem p
      | none => exact hgridmem p
  · simp at hp

theorem gdcp_eq_of_boundary (hyp : ℚ → ℚ → ℚ) (verts : Option (List Pt))
    (mask : Option (List (List Bool))) (NTotal NBoundary W H : ℕ) (sx sy : ℚ)
    (pts1 : List Pt)
    (hb : boundary_points hyp verts NBoundary = some pts1) :
    generate_deterministic_context_points hyp verts mask NTotal NBoundary
        W H sx sy =
      some (if NTotal <
          (pts1 ++ interior_points verts mask (NTotal - pts1.length)
            W H sx sy).length
        then (pts1 ++ interior_points verts mask (NTotal - pts1.length)
          W H sx sy).take NTotal
        else pts1 ++ interior_points verts mask (NTotal - pts1.length)
          W H sx sy) := by
  unfold generate_deterministic_context_points
  rw [hb]

/-- C4 (amended): for every norm, every mask, all sizes with N_boundary ≤
N_total, and every optional polygon list that, whenever it has at least two
but fewer than N_boundary vertices, has positive perimeter, the CPU Mask
Sampler returns exactly N_total points, and each returned point is a
genuine sampled coordinate - a polygon vertex, an arc-length interpolated
boundary point, a scaled interior mask pixel, or a canvas grid point - so
(0, 0) can occur only as such a genuine sample, never as padding. A
degenerate polygon (all vertices identical) that triggers edge
interpolation makes the call raise instead (see the counterexample). -/
theorem cpu_sampler_count_amended (hyp : ℚ → ℚ → ℚ) (verts : Option (List Pt))
    (m : List (List Bool)) (NTotal NBoundary W H : ℕ) (sx sy : ℚ)
    (hNb : NBoundary ≤ NTotal)
    (hdeg : ∀ vs, verts = some vs → 2 ≤ vs.length → vs.length < NBoundary →
      0 < perim_of hyp vs) :
    ∃ out, generate_deterministic_context_points hyp verts (some m)
        NTotal NBoundary W H sx sy = some out ∧
      out.length = NTotal ∧
      ∀ p ∈ out, IsSampledPoint hyp verts m W H sx sy p := by
  obtain ⟨pts1, hb, hble, hbmem⟩ := boundary_points_spec hyp verts NBoundary hdeg
  have hil := interior_points_length verts m (NTotal - pts1.length) W H sx sy
  have hptslen : (pts1 ++ interior_points verts (some m) (NTotal - pts1.length)
      W H sx sy).length = NTotal := by
    rw [List.length_append, hil]
    omega
  refine ⟨pts1 ++ interior_points verts (some m) (NTotal - pts1.length)
    W H sx sy, ?_, hptslen, ?_⟩
  · rw [gdcp_eq_of_boundary hyp verts (some m) NTotal NBoundary W H sx sy pts1 hb]
    rw [if_neg (by omega)]
  · intro p hp
    rcases List.mem_append.mp hp with hp | hp
    · rcases hbmem p hp with ⟨vs, hv, hmem⟩ | ⟨vs, dd, hv, hint⟩
      · exact Or.inl ⟨vs, hv, hmem⟩
      · exact Or.inr (Or.inl ⟨vs, dd, hv, hint⟩)
    · exact interior_points_mem hyp verts m (NTotal - pts1.length) W H sx sy p hp

theorem cpu_sampler_count_amended_witness :
    ∃ out, generate_deterministic_context_points hypL1 none (some [[true]])
        2 0 1 1 1 1 = some out ∧ out.length = 2 ∧
      ∀ p ∈ out, IsSampledPoint hypL1 none [[true]] 1 1 1 1 p :=
  cpu_sampler_count_amended hypL1 none [[true]] 2 0 1 1 1 1 (by decide)
    (fun vs h => nomatch h)

/-- C4 counterexample: the degenerate polygon with two identical vertices
(1, 1), N_boundary = 3 = N_total and a 1-pixel mask drives the
edge-interpolation search past the last edge (the perimeter is 0, so
searchsorted lands at index 2 of the 2-element edge-length array) and the
call raises an IndexError (modelled none) instead of returning N_total
points. -/
theorem cpu_sampler_degenerate_cex :
    generate_deterministic_context_points hypL1
      (some [((1 : ℚ), (1 : ℚ)), ((1 : ℚ), (1 : ℚ))]) (some [[true]])
      3 3 1 1 1 1 = none := by
  with_unfolding_all rfl
